import Mathlib

/-!
Verification of the scdlpicker decision/scheduling core: a shallow
embedding in Lean 4 of the relocation gating logic
(`scdlpicker.online-relocator.py`), the repicker mailbox consumer
(`scdlpicker.repicker.py`) and the inventory predicate
(`lib/inventory.py`), together with theorems settling the behavioural
claims about those components.

Conventions of the embedding:
* Python floats and SeisComP time values are modelled as rationals (ℚ);
  all the comparisons of interest are exact.
* A Python attribute access that may raise (and whose exception is
  caught, e.g. `origin.quality().standardError()` or `arrival.weight()`)
  is modelled as an `Option` field, `none` meaning "raises".
* External collaborators (the relocation solver, the depth-phase
  estimator, the ML prediction step, filesystem contents) are passed in
  as explicit oracle arguments; the code under verification never
  inspects them beyond their returned values, so this is faithful.
-/

namespace Scdlpicker

/-! ## lib/inventory.py -/

/-- An inventory item (network / station / sensor location / stream) as
seen by `operational`: a start time and an end time, each of which may be
unreadable (the Python getter raises).  `stop` models `obj.end()`
(`end` is a Lean keyword). -/
structure InvItem where
  start : Option ℚ
  stop : Option ℚ
deriving DecidableEq, Repr

/-- `operational(obj, time)` from `lib/inventory.py`: the start time is
read inside a `try` together with `assert time >= start`; any failure
returns `False`.  The end time is read inside a second `try`; a failure
there means "open end". -/
def operational (obj : InvItem) (time : ℚ) : Bool :=
  match obj.start with
  | none => false
  | some s =>
    if time < s then false
    else
      match obj.stop with
      | none => true
      | some e => if e < time then false else true

/-! ## Online relocator: pick comparison and the improvement test -/

/-- An arrival attached to an origin: a pick reference and a weight.
`pickID = ""` models the falsy-pickID case; `weight = none` models an
exception while reading the weight (caught and skipped). -/
structure Arrival where
  pickID : String
  weight : Option ℚ
deriving DecidableEq, Repr

/-- An origin as consumed by the relocator's comparison logic: its
arrival list, its depth (km) and its quality standard error
(`none` = reading it raises `ValueError`). -/
structure Origin where
  arrivals : List Arrival
  depth : ℚ
  standardError : Option ℚ
deriving DecidableEq, Repr

/-- The per-arrival filter inside `App.getPicksReferencedByOrigin`:
skip an arrival whose pickID is falsy, whose weight is unreadable or
below `minWeight`, or whose pick is not registered
(`seiscomp.datamodel.Pick.Find` returns nothing).  `reg` is the set of
pickIDs the global registry can resolve. -/
def keepArrival (reg : List String) (minWeight : ℚ) (a : Arrival) : Bool :=
  if a.pickID = "" then false
  else
    match a.weight with
    | none => false
    | some w => if w < minWeight then false else decide (a.pickID ∈ reg)

/-- `App.getPicksReferencedByOrigin`: the keys of the `picks` dict, in
insertion order.  The dict keeps one entry per pickID. -/
def getPicksReferencedByOrigin (reg : List String) (minWeight : ℚ)
    (origin : Origin) : List String :=
  origin.arrivals.foldl
    (fun acc a =>
      if keepArrival reg minWeight a then
        if a.pickID ∈ acc then acc else acc ++ [a.pickID]
      else acc) []

/-- `App.comparePicks`: the `(common, only1, only2)` pickID partition of
the two origins' referenced picks (weight filter 0.5). -/
def comparePicks (reg : List String) (origin1 origin2 : Origin) :
    List String × List String × List String :=
  let picks1 := getPicksReferencedByOrigin reg (1/2) origin1
  let picks2 := getPicksReferencedByOrigin reg (1/2) origin2
  (picks1.filter (fun x => decide (x ∈ picks2)),
   picks1.filter (fun x => decide (x ∉ picks2)),
   picks2.filter (fun x => decide (x ∉ picks1)))

/-- `App.improvement(origin1, origin2)`: pick-count and RMS based test
whether `origin2` improves on `origin1`. -/
def improvement (reg : List String) (origin1 origin2 : Origin) : Bool :=
  let c := comparePicks reg origin1 origin2
  let count1 := c.2.1.length + c.1.length
  let count2 := c.2.2.length + c.1.length
  let rms1 : ℚ := match origin1.standardError with
    | some r => max r 1
    | none => 10
  let rms2 : ℚ := match origin2.standardError with
    | some r => max r 1
    | none => 1
  if count1 = 0 then true
  else decide ((((count2 : ℚ) / (count1 : ℚ)) ^ 2) * (rms1 / rms2) > 1)

/-- Spec-side reading of the improvement test (§4.3 of the spec),
phrased over pick-ID sets: `common`, `onlyPrevious`, `onlyCandidate` are
set operations on the two origins' referenced-pick sets and the counts
are set cardinalities. -/
def specPickSet (reg : List String) (origin : Origin) : Finset String :=
  (getPicksReferencedByOrigin reg (1/2) origin).toFinset

/-- The spec's formula for `improves(previous, candidate)`. -/
def specImproves (reg : List String) (previous candidate : Origin) : Bool :=
  let s1 := specPickSet reg previous
  let s2 := specPickSet reg candidate
  let common := s1 ∩ s2
  let onlyPrevious := s1 \ s2
  let onlyCandidate := s2 \ s1
  let count1 := onlyPrevious.card + common.card
  let count2 := onlyCandidate.card + common.card
  let rms1 : ℚ := match previous.standardError with
    | some r => max r 1
    | none => 10
  let rms2 : ℚ := match candidate.standardError with
    | some r => max r 1
    | none => 1
  if count1 = 0 then true
  else decide ((((count2 : ℚ) / (count1 : ℚ)) ^ 2) * (rms1 / rms2) > 1)

/-- Weight-1 arrivals for the given pickIDs. -/
def mkArrivals (ids : List String) : List Arrival :=
  ids.map (fun i => ⟨i, some 1⟩)

/-- Registry resolving pickIDs `"p0"`..`"p21"`. -/
def exReg : List String :=
  ["p0", "p1", "p2", "p3", "p4", "p5", "p6", "p7", "p8", "p9", "p10",
   "p11", "p12", "p13", "p14", "p15", "p16", "p17", "p18", "p19", "p20", "p21"]

/-- Example previous origin: 10 referenced picks, standardError 2.0. -/
def exPrev : Origin :=
  ⟨mkArrivals ["p0", "p1", "p2", "p3", "p4", "p5", "p6", "p7", "p8", "p9"],
   10, some 2⟩

/-- Example candidate with 12 referenced picks, standardError 1.0. -/
def exCand12 : Origin :=
  ⟨mkArrivals ["p10", "p11", "p12", "p13", "p14", "p15", "p16", "p17",
     "p18", "p19", "p20", "p21"], 10, some 1⟩

/-- Example candidate with 5 referenced picks, standardError 1.0. -/
def exCand5 : Origin :=
  ⟨mkArrivals ["p10", "p11", "p12", "p13", "p14"], 10, some 1⟩

/-! ## Online relocator: `App.processEvent` relocation state machine

The two-iteration attempt loop of `processEvent` (lines 443–517),
with the external collaborators as oracles: `directReloc` is the result
of the first `_relocation.relocate` call (`none` = failure),
`depthEstimate` is the depth-phase depth computed after the direct-phase
send (`none` = failure), `depthReloc` the result of the second
`relocate` call.  `registry` is the pick registry used by
`improvement`; `testMode` is the `--test` command line flag. -/

/-- The phase tag of a relocation attempt. -/
inductive APhase where
  | direct
  | depthPhase
deriving DecidableEq, Repr

/-- Oracle inputs of one `processEvent` run. -/
structure Env where
  registry : List String
  testMode : Bool
  directReloc : Option Origin
  depthEstimate : Option ℚ
  depthReloc : Option Origin
deriving DecidableEq, Repr

/-- One visit to the send point of `processEvent`: the phase, the cached
baseline `self.relocated[eventID]` at that moment, the origin handed to
the messaging send, and whether it was actually transmitted
(`sent = false` in test mode). -/
structure SendRec where
  phase : APhase
  baselineBefore : Option Origin
  origin : Origin
  sent : Bool
deriving DecidableEq, Repr

/-- Result of one `processEvent` run: the send-point visits in order,
the final `self.relocated[eventID]` cache entry, and whether the
depth-phase relocation attempt was entered (second `relocate` call
issued). -/
structure POut where
  trace : List SendRec
  cache : Option Origin
  depthPhaseEntered : Bool
deriving DecidableEq, Repr

/-- The improvement gate of the direct phase: blocks when a baseline is
cached for the event and the candidate does not improve on it. -/
def gateBlocks (reg : List String) (prev : Option Origin) (r : Origin) : Bool :=
  match prev with
  | none => false
  | some p => ! improvement reg p r

/-- `App.processEvent`, lines 443–517: the `for attempt in ["direct",
"depth phase based"]` loop.  `prev` is `self.relocated.get(eventID)` on
entry.  Mirrors the source's early `return`s (`relocation failed`,
`too few arrivals`, `no improvement`) and `break`s (depth-phase
preconditions). -/
def processEventModel (env : Env) (prev : Option Origin) : POut :=
  match env.directReloc with
  | none => ⟨[], prev, false⟩
  | some r1 =>
    if r1.arrivals.length < 5 then ⟨[], prev, false⟩
    else if gateBlocks env.registry prev r1 then ⟨[], prev, false⟩
    else
      let rec1 : SendRec := ⟨APhase.direct, prev, r1, !env.testMode⟩
      match env.depthEstimate with
      | none => ⟨[rec1], some r1, false⟩
      | some _ =>
        if r1.arrivals.length < 50 then ⟨[rec1], some r1, false⟩
        else if 120 < r1.depth then ⟨[rec1], some r1, false⟩
        else
          match env.depthReloc with
          | none => ⟨[rec1], some r1, true⟩
          | some r2 =>
            if r2.arrivals.length < 5 then ⟨[rec1], some r1, true⟩
            else
              ⟨[rec1, ⟨APhase.depthPhase, some r1, r2, !env.testMode⟩],
               some r2, true⟩

/-- The cached-baseline chaining of §4.4: each send-point visit sees as
baseline the origin of the previous visit (the first sees the incoming
cache), and the final cache is the origin of the last visit (or the
incoming cache when there was none). -/
def chainFrom (prev : Option Origin) : List SendRec → Option Origin → Prop
  | [], c => c = prev
  | r :: rest, c => r.baselineBefore = prev ∧ chainFrom (some r.origin) rest c

/-! ### Concrete runs of `processEvent` -/

/-- Registry for the depth-phase send counterexample: resolves
`"q0"`..`"q9"`. -/
def regC2 : List String :=
  ["q0", "q1", "q2", "q3", "q4", "q5", "q6", "q7", "q8", "q9"]

/-- 50 pickIDs for a direct-phase result that qualifies for the depth
phase. -/
def idsC2 : List String :=
  ["q0", "q1", "q2", "q3", "q4", "q5", "q6", "q7", "q8", "q9", "q10", "q11",
   "q12", "q13", "q14", "q15", "q16", "q17", "q18", "q19", "q20", "q21", "q22",
   "q23", "q24", "q25", "q26", "q27", "q28", "q29", "q30", "q31", "q32", "q33",
   "q34", "q35", "q36", "q37", "q38", "q39", "q40", "q41", "q42", "q43", "q44",
   "q45", "q46", "q47", "q48", "q49"]

/-- Direct-phase result with 50 arrivals (10 of them resolvable picks),
depth 10 km, standardError 1.0. -/
def r1C2 : Origin := ⟨mkArrivals idsC2, 10, some 1⟩

/-- Depth-phase result with 5 arrivals, all picks shared with `r1C2`,
standardError 1.0 — it does not improve on `r1C2`
(score `(5/10)^2 = 1/4`). -/
def r2C2 : Origin := ⟨mkArrivals ["q0", "q1", "q2", "q3", "q4"], 10, some 1⟩

/-- Oracle environment in which the depth phase runs and its
non-improving result is sent. -/
def envC2 : Env := ⟨regC2, false, some r1C2, some 33, some r2C2⟩

/-- `n` arrivals with unreadable weights (they count toward
`arrivalCount` but reference no resolvable pick). -/
def padArrivals (n : Nat) : List Arrival :=
  List.replicate n ⟨"", none⟩

/-- Direct-phase result with 49 arrivals, depth 10 km. -/
def oA49 : Origin := ⟨padArrivals 49, 10, some 1⟩

/-- Direct-phase result with 50 arrivals, depth 10 km. -/
def oA50 : Origin := ⟨padArrivals 50, 10, some 1⟩

/-- Direct-phase result with 50 arrivals, depth 120 km. -/
def oD120 : Origin := ⟨padArrivals 50, 120, some 1⟩

/-- Direct-phase result with 50 arrivals, depth 121 km. -/
def oD121 : Origin := ⟨padArrivals 50, 121, some 1⟩

/-- Environment whose direct phase yields the given origin, with a depth
estimate available. -/
def envOf (o : Origin) : Env := ⟨[], false, some o, some 33, none⟩

/-- Cached baseline for the direct-gate witness run: one resolvable
pick, standardError 3.0. -/
def pW : Origin := ⟨mkArrivals ["w0"], 10, some 3⟩

/-- Direct-phase candidate for the witness run: five resolvable picks,
standardError 1.0 — it improves on `pW` (score `5^2 * 3`). -/
def rW : Origin := ⟨mkArrivals ["w0", "w1", "w2", "w3", "w4"], 10, some 1⟩

/-- Environment for the direct-gate witness run. -/
def envW : Env := ⟨["w0", "w1", "w2", "w3", "w4"], false, some rW, none, none⟩

/-! ### The fixed-depth directive of `processEvent` (lines 410–432) -/

/-- The incoming preferred origin as consumed by the fixed-depth logic:
location, depth, whether it carries a fixed depth
(`_util.hasFixedDepth`), and its creation agency and status flag. -/
structure IncomingOrigin where
  lat : ℚ
  lon : ℚ
  depth : ℚ
  hasFixedDepth : Bool
  agencyID : String
  statusFlag : String
deriving DecidableEq, Repr

/-- `getFixedDepth(origin)`: region override — 1 km inside the SW Poland
box (lat 50–52, lon 15–20), nothing elsewhere (implicit `None`). -/
def getFixedDepth (o : IncomingOrigin) : Option ℚ :=
  if 50 ≤ o.lat ∧ o.lat ≤ 52 ∧ 15 ≤ o.lon ∧ o.lon ≤ 20 then some 1 else none

/-- The fixed-depth directive computed by `processEvent` lines 410–432:
start from the region override (which also sets `defaultDepth`), then —
only when the incoming origin has a fixed depth — overwrite it with the
origin's own depth for trusted manual origins of the own agency, or pass
the default depth through when the origin's depth already equals it. -/
def fixedDepthDirective (ownAgency : String) (o : IncomingOrigin) : Option ℚ :=
  let fd0 := getFixedDepth o
  let defaultDepth : ℚ := match fd0 with
    | some d => d
    | none => 10
  if o.hasFixedDepth = true then
    if o.agencyID = ownAgency ∧ o.statusFlag = "M" then some o.depth
    else if o.depth = defaultDepth then some defaultDepth
    else fd0
  else fd0

/-- The directive as the claim orders it: region override first, then
trusted-manual, then default-depth passthrough, then free. -/
def claimedDirective (ownAgency : String) (o : IncomingOrigin) : Option ℚ :=
  if 50 ≤ o.lat ∧ o.lat ≤ 52 ∧ 15 ≤ o.lon ∧ o.lon ≤ 20 then some 1
  else if o.agencyID = ownAgency ∧ o.statusFlag = "M" then some o.depth
  else if o.depth = 10 then some 10
  else none

/-- The directive with the precedence the code actually implements:
trusted-manual first (requires a fixed-depth origin), then the region
override, then the default-depth passthrough (requires a fixed-depth
origin), then free. -/
def amendedDirective (ownAgency : String) (o : IncomingOrigin) : Option ℚ :=
  if o.hasFixedDepth = true ∧ o.agencyID = ownAgency ∧ o.statusFlag = "M" then
    some o.depth
  else if 50 ≤ o.lat ∧ o.lat ≤ 52 ∧ 15 ≤ o.lon ∧ o.lon ≤ 20 then some 1
  else if o.hasFixedDepth = true ∧ o.depth = 10 then some 10
  else none

/-- Counterexample origin for C3: inside the region box, fixed-depth,
own-agency manual, depth 33 km. -/
def oC3 : IncomingOrigin := ⟨51, 17, 33, true, "GFZ", "M"⟩

/-! ### Event readiness gate (`App.readyToProcess`, lines 279–325) and
the per-tick sweep (`App.kickOffProcessing`, lines 270–277) -/

/-- Outcome of one readiness evaluation.  The Python function returns a
bool and separately deletes rejected events from `self.pendingEvents`;
the tri-state records both effects: `notReady` = `False` without
deletion, `rejected` = `False` with deletion, `ready` = `True`. -/
inductive Readiness where
  | notReady
  | ready
  | rejected
deriving DecidableEq, Repr

/-- A preferred origin as consumed by the readiness gate: its time, its
creation author (`none` = reading it raises, handled as `"MISSING"`),
and whether `_util.qualified` accepts it (external check, abstracted as
a field). -/
structure ROrigin where
  time : ℚ
  author : Option String
  qualified : Bool
deriving DecidableEq, Repr

/-- `App.readyToProcess`: `org` is the loaded preferred origin (`none` =
load failure, retried next cycle).  The delay check comes first; the
own-author and qualification rejections only run after it. -/
def readyToProcess (ownAuthor : String) (minDelay now : ℚ)
    (org : Option ROrigin) : Readiness :=
  match org with
  | none => Readiness.notReady
  | some o =>
    if now - o.time < minDelay then Readiness.notReady
    else
      let author := match o.author with
        | some a => a
        | none => "MISSING"
      if author = ownAuthor then Readiness.rejected
      else if o.qualified = false then Readiness.rejected
      else Readiness.ready

/-- A pending event: its identifier and its loaded preferred origin. -/
structure PendingEvent where
  id : String
  origin : Option ROrigin
deriving DecidableEq, Repr

/-- Insertion into a ≤-sorted list (models Python's `sorted`). -/
def insertLe {α : Type} (le : α → α → Bool) (e : α) : List α → List α
  | [] => [e]
  | x :: xs => if le e x then e :: x :: xs else x :: insertLe le e xs

/-- Insertion sort (models Python's `sorted`; only the membership
properties are used). -/
def sortLe {α : Type} (le : α → α → Bool) : List α → List α
  | [] => []
  | x :: xs => insertLe le x (sortLe le xs)

/-- One event's effect within `kickOffProcessing`: Ready events are
popped from the pending set and handed to `processEvent`; rejected
events are deleted inside `readyToProcess`; NotReady events stay. -/
def sweepStepFn (own : String) (minDelay now : ℚ)
    (acc : List PendingEvent × List PendingEvent) (e : PendingEvent) :
    List PendingEvent × List PendingEvent :=
  match readyToProcess own minDelay now e.origin with
  | Readiness.ready => (acc.1.filter (fun x => decide (x.id ≠ e.id)), acc.2 ++ [e])
  | Readiness.rejected => (acc.1.filter (fun x => decide (x.id ≠ e.id)), acc.2)
  | Readiness.notReady => acc

/-- `App.kickOffProcessing`: iterate over a sorted snapshot of the
pending event identifiers; returns the surviving pending set and the
events handed to `processEvent`, in order. -/
def sweep (own : String) (minDelay now : ℚ) (pending : List PendingEvent) :
    List PendingEvent × List PendingEvent :=
  (sortLe (fun a b => decide (a.id ≤ b.id)) pending).foldl
    (sweepStepFn own minDelay now) (pending, [])

/-- Iterated sweeps at the given tick times, accumulating every event
ever handed to `processEvent`. -/
def sweeps (own : String) (minDelay : ℚ) :
    List ℚ → List PendingEvent → List PendingEvent × List PendingEvent
  | [], pending => (pending, [])
  | now :: ticks, pending =>
    let r := sweep own minDelay now pending
    let r2 := sweeps own minDelay ticks r.1
    (r2.1, r.2 ++ r2.2)

/-- Counterexample origin for C7: authored by this system itself, fully
qualified, origin time 0. -/
def oC7 : ROrigin := ⟨0, some "dl-reloc", true⟩

/-- Counterexample pending event for C7. -/
def eC7 : PendingEvent := ⟨"gfz2024abcd", some oC7⟩

/-- Witness origin for C5: foreign author, qualified, origin time 0. -/
def oC5 : ROrigin := ⟨0, some "seiscomp", true⟩

/-- Witness pending event for the amended C7 theorem (same own-author
origin as `eC7`, evaluated after the delay has elapsed). -/
def eW7 : PendingEvent := ⟨"gfz2024wxyz", some oC7⟩

/-! ### Repicker mailbox queue (`Repicker._findSpoolItems` /
`Repicker._poll`, lines 331–461) -/

/-- A spool entry: a symlink's file name and the payload path it
resolves to. -/
structure SpoolLink where
  name : String
  target : String
deriving DecidableEq, Repr

/-- The filesystem as the consumer sees it: the links present in the
spool directory, the set of existing payload files, and the outgoing
directory's entries. -/
structure SpoolState where
  links : List SpoolLink
  targets : List String
  outgoing : List String
deriving DecidableEq, Repr

/-- What happens to one item inside `_poll`'s loop body: `errSkip` =
`RuntimeError` from `_process` (link kept, `continue`); `noResult` = no
new picks (link removed, `continue`); `testStop` = test mode (link
kept, `continue`); `success` = results written, outgoing link created,
link removed. -/
inductive ItemOutcome where
  | errSkip
  | noResult
  | testStop
  | success
deriving DecidableEq, Repr

/-- `os.remove(link)`: drop the named link from the spool. -/
def removeLink (nm : String) (s : SpoolState) : SpoolState :=
  { s with links := s.links.filter (fun l => decide (l.name ≠ nm)) }

/-- `Repicker._findSpoolItems`: the `.yaml`-named links whose targets
exist, ordered by name.  A link with a missing target is logged and left
for a future pass. -/
def findSpoolItems (s : SpoolState) : List SpoolLink :=
  sortLe (fun a b => decide (a.name ≤ b.name))
    ((s.links.filter (fun l => l.name.endsWith ".yaml")).filter
      (fun l => decide (l.target ∈ s.targets)))

/-- The item loop inside `Repicker._poll`: visit each ready item in
order; the returned list records every item read and handed to
`_process`, in order.  In `reverse` (prioritize-most-recent) mode the
loop breaks after the first successfully processed item. -/
def runItems (outcome : String → ItemOutcome) (rev : Bool) :
    List SpoolLink → SpoolState → SpoolState × List String
  | [], s => (s, [])
  | l :: rest, s =>
    match outcome l.name with
    | ItemOutcome.errSkip =>
      let r := runItems outcome rev rest s
      (r.1, l.name :: r.2)
    | ItemOutcome.testStop =>
      let r := runItems outcome rev rest s
      (r.1, l.name :: r.2)
    | ItemOutcome.noResult =>
      let r := runItems outcome rev rest (removeLink l.name s)
      (r.1, l.name :: r.2)
    | ItemOutcome.success =>
      let s1 := removeLink l.name { s with outgoing := s.outgoing ++ [l.name] }
      if rev then (s1, [l.name])
      else
        let r := runItems outcome rev rest s1
        (r.1, l.name :: r.2)

/-- One wake of `Repicker._poll`: list the ready items, order them
(lexicographically descending in `reverse` mode), run the loop. -/
def pollStep (outcome : String → ItemOutcome) (rev : Bool)
    (s : SpoolState) : SpoolState × List String :=
  let items := findSpoolItems s
  runItems outcome rev (if rev then items.reverse else items) s

/-- The spool state after `n` wakes. -/
def pollIter (outcome : String → ItemOutcome) (rev : Bool) :
    Nat → SpoolState → SpoolState
  | 0, s => s
  | n + 1, s => pollIter outcome rev n (pollStep outcome rev s).1

/-- Every item read (handed to `_process`) during `n` wakes. -/
def pollTrace (outcome : String → ItemOutcome) (rev : Bool) :
    Nat → SpoolState → List String
  | 0, _ => []
  | n + 1, s =>
    (pollStep outcome rev s).2 ++ pollTrace outcome rev n (pollStep outcome rev s).1

/-- Witness spool state for C8: the link `"a.yaml"` has been removed
(only `"b.yaml"` remains) while its payload `"events/e1/in/a.yaml"`
still exists untouched. -/
def sW8 : SpoolState :=
  ⟨[⟨"b.yaml", "events/e1/in/b.yaml"⟩],
   ["events/e1/in/a.yaml", "events/e1/in/b.yaml"], []⟩

/-- Outcome oracle for the C8 witness: every processed item succeeds. -/
def outcomeW8 : String → ItemOutcome := fun _ => ItemOutcome.success

/-! ### Repicker per-event pick processing (`Repicker._process`,
lines 235–329) -/

/-- A pick record from a mailbox payload: its publicID, its onset time,
and the derivation fields (`model`, `confidence`) that only appear on
repicked output. -/
structure RPick where
  publicID : String
  time : ℚ
  model : Option String
  confidence : Option ℚ
deriving DecidableEq, Repr

/-- Dict lookup by key (insertion-ordered association list). -/
def alookup (k : String) : List (String × RPick) → Option RPick
  | [] => none
  | (k', v) :: rest => if k' = k then some v else alookup k rest

/-- Dict store `d[k] = v` (overwrite or append). -/
def aupdate (k : String) (v : RPick) : List (String × RPick) → List (String × RPick)
  | [] => [(k, v)]
  | (k', v') :: rest =>
    if k' = k then (k, v) :: rest else (k', v') :: aupdate k v rest

/-- `EventWorkspaceContainer`: the per-event dicts of already-seen input
picks and of derived ML picks (the waveform cache plays no role here). -/
structure Workspace where
  picks : List (String × RPick)
  mlpicks : List (String × RPick)
deriving DecidableEq, Repr

/-- The new-pick filter at the top of `_process`: register each not-yet
seen publicID in `workspace.picks` and collect it; skip picks already
seen for this event. Returns the grown dict and the new picks in
order. -/
def collectNew (wp : List (String × RPick)) :
    List RPick → List (String × RPick) × List RPick
  | [] => (wp, [])
  | p :: rest =>
    if (alookup p.publicID wp).isSome then collectNew wp rest
    else
      let r := collectNew (wp ++ [(p.publicID, p)]) rest
      (r.1, p :: r.2)

/-- The per-prediction gate of `_process`: drop a `(time, confidence)`
pair whose time is more than 10 s from the triggering pick's time or
whose confidence is below the configured minimum; otherwise derive a new
pick (`publicID + "/repick"`, model name and confidence attached, time
replaced). -/
def keepPred (minConf : ℚ) (modelName : String) (trig : RPick)
    (q : ℚ × ℚ) : Option RPick :=
  if 10 < |q.1 - trig.time| then none
  else if q.2 < minConf then none
  else some ⟨trig.publicID ++ "/repick", q.1, some modelName, some q.2⟩

/-- `Repicker._process`: filter the payload's picks down to the unseen
ones, submit exactly those to prediction (`mlPredict`, the
`_ml_predict` oracle returning per-pickID lists of `(time, confidence)`
pairs), and derive the gated result picks.  Returns `(new_picks,
workspace', submitted pickIDs)`. -/
def processStep (minConf : ℚ) (modelName : String)
    (mlPredict : List RPick → List (String × List (ℚ × ℚ)))
    (ws : Workspace) (adhoc : List RPick) :
    List RPick × Workspace × List String :=
  let c := collectNew ws.picks adhoc
  let submitted := c.2.map RPick.publicID
  if c.2.isEmpty then ([], ⟨c.1, ws.mlpicks⟩, submitted)
  else
    let predictions := mlPredict c.2
    if predictions.isEmpty then ([], ⟨c.1, ws.mlpicks⟩, submitted)
    else
      let r := predictions.foldl (fun acc pr =>
        match alookup pr.1 c.1 with
        | none => acc
        | some trig => pr.2.foldl (fun acc2 q =>
            match keepPred minConf modelName trig q with
            | none => acc2
            | some np => (acc2.1 ++ [np], aupdate pr.1 np acc2.2)) acc)
        ([], ws.mlpicks)
      (r.1, ⟨c.1, r.2⟩, submitted)

/-- Witness pick for C9. -/
def pickW9 : RPick := ⟨"Pick/w9", 0, none, none⟩

/-- Witness workspace for C9: `pickW9` has already been seen. -/
def wsW9 : Workspace := ⟨[("Pick/w9", pickW9)], []⟩

/-! ## DEFS-END -/

/-! ## Theorems -/

/-! ### Lemmas about the pick-collection fold -/

lemma mem_pickFold (reg : List String) (mw : ℚ) (l : List Arrival) :
    ∀ (acc : List String) (x : String),
    (x ∈ l.foldl (fun acc a =>
        if keepArrival reg mw a then
          if a.pickID ∈ acc then acc else acc ++ [a.pickID]
        else acc) acc)
    ↔ x ∈ acc ∨ ∃ a, a ∈ l ∧ keepArrival reg mw a = true ∧ a.pickID = x := by
  induction l with
  | nil => simp
  | cons a t ih =>
    intro acc x
    simp only [List.foldl_cons]
    by_cases hk : keepArrival reg mw a
    · rw [if_pos hk]
      by_cases hm : a.pickID ∈ acc
      · rw [if_pos hm, ih]
        constructor
        · rintro (hx | ⟨b, hb, hkb, hbx⟩)
          · exact Or.inl hx
          · exact Or.inr ⟨b, List.mem_cons_of_mem a hb, hkb, hbx⟩
        · rintro (hx | ⟨b, hb, hkb, hbx⟩)
          · exact Or.inl hx
          · rcases List.mem_cons.mp hb with hba | hbt
            · subst hba; exact Or.inl (hbx ▸ hm)
            · exact Or.inr ⟨b, hbt, hkb, hbx⟩
      · rw [if_neg hm, ih]
        constructor
        · rintro (hx | ⟨b, hb, hkb, hbx⟩)
          · rcases List.mem_append.mp hx with hx | hx
            · exact Or.inl hx
            · exact Or.inr ⟨a, List.mem_cons_self a t, hk,
                (List.mem_singleton.mp hx).symm⟩
          · exact Or.inr ⟨b, List.mem_cons_of_mem a hb, hkb, hbx⟩
        · rintro (hx | ⟨b, hb, hkb, hbx⟩)
          · exact Or.inl (List.mem_append_left _ hx)
          · rcases List.mem_cons.mp hb with hba | hbt
            · subst hba
              exact Or.inl (List.mem_append_right _ (by simpa using hbx.symm))
            · exact Or.inr ⟨b, hbt, hkb, hbx⟩
    · rw [if_neg hk, ih]
      constructor
      · rintro (hx | ⟨b, hb, hkb, hbx⟩)
        · exact Or.inl hx
        · exact Or.inr ⟨b, List.mem_cons_of_mem a hb, hkb, hbx⟩
      · rintro (hx | ⟨b, hb, hkb, hbx⟩)
        · exact Or.inl hx
        · rcases List.mem_cons.mp hb with hba | hbt
          · subst hba; exact absurd hkb hk
          · exact Or.inr ⟨b, hbt, hkb, hbx⟩

lemma nodup_pickFold (reg : List String) (mw : ℚ) (l : List Arrival) :
    ∀ (acc : List String), acc.Nodup →
    (l.foldl (fun acc a =>
        if keepArrival reg mw a then
          if a.pickID ∈ acc then acc else acc ++ [a.pickID]
        else acc) acc).Nodup := by
  induction l with
  | nil => intro acc h; simpa using h
  | cons a t ih =>
    intro acc h
    simp only [List.foldl_cons]
    by_cases hk : keepArrival reg mw a
    · rw [if_pos hk]
      by_cases hm : a.pickID ∈ acc
      · rw [if_pos hm]; exact ih acc h
      · rw [if_neg hm]
        refine ih _ ?_
        simp [List.nodup_append, h, hm]
    · rw [if_neg hk]; exact ih acc h

lemma getPicks_nodup (reg : List String) (mw : ℚ) (o : Origin) :
    (getPicksReferencedByOrigin reg mw o).Nodup :=
  nodup_pickFold reg mw o.arrivals [] List.nodup_nil

lemma length_filter_mem_eq_card_inter (l1 l2 : List String) (h : l1.Nodup) :
    (l1.filter (fun x => decide (x ∈ l2))).length =
      (l1.toFinset ∩ l2.toFinset).card := by
  rw [← List.toFinset_card_of_nodup (h.filter _)]
  congr 1
  ext x
  simp [List.mem_filter]

lemma length_filter_not_mem_eq_card_sdiff (l1 l2 : List String) (h : l1.Nodup) :
    (l1.filter (fun x => decide (x ∉ l2))).length =
      (l1.toFinset \ l2.toFinset).card := by
  rw [← List.toFinset_card_of_nodup (h.filter _)]
  congr 1
  ext x
  simp [List.mem_filter]

set_option maxHeartbeats 1000000 in
/-- C1: `App.improvement` computes exactly the spec's formula — the
set-based counts over weight-≥-0.5 referenced picks, the asymmetric RMS
defaults (10.0 / 1.0), the unconditional `true` at `count1 = 0`, and the
score test `(count2/count1)^2 * (rms1/rms2) > 1`; moreover the spec's
two worked examples evaluate as stated (count1=10, rms1=2.0, count2=12,
rms2=1.0 ⇒ true; same rms with count2=5 ⇒ false). -/
theorem c1_improvement_matches_spec :
    (∀ reg o1 o2, improvement reg o1 o2 = specImproves reg o1 o2)
    ∧ improvement exReg exPrev exCand12 = true
    ∧ improvement exReg exPrev exCand5 = false := by
  refine ⟨?_, ?_, ?_⟩
  · intro reg o1 o2
    have h1 := getPicks_nodup reg (1/2) o1
    have h2 := getPicks_nodup reg (1/2) o2
    have e1 := length_filter_mem_eq_card_inter
      (getPicksReferencedByOrigin reg (1/2) o1)
      (getPicksReferencedByOrigin reg (1/2) o2) h1
    have e2 := length_filter_not_mem_eq_card_sdiff
      (getPicksReferencedByOrigin reg (1/2) o1)
      (getPicksReferencedByOrigin reg (1/2) o2) h1
    have e3 := length_filter_not_mem_eq_card_sdiff
      (getPicksReferencedByOrigin reg (1/2) o2)
      (getPicksReferencedByOrigin reg (1/2) o1) h2
    simp only [improvement, specImproves, comparePicks, specPickSet, e1, e2, e3]
  · norm_num +decide [improvement, comparePicks, getPicksReferencedByOrigin,
      keepArrival, exReg, exPrev, exCand12, mkArrivals]
  · norm_num +decide [improvement, comparePicks, getPicksReferencedByOrigin,
      keepArrival, exReg, exPrev, exCand5, mkArrivals]

/-- C10: `operational` returns `False` when the start time is
unavailable or the query time precedes it; with a known start not after
the time, it returns `True` for an open end, and otherwise iff the time
is not after the end — both boundaries inclusive. -/
theorem c10_operational_matches_spec :
    (∀ (obj : InvItem) (t : ℚ),
      operational obj t = true ↔
        ∃ s, obj.start = some s ∧ s ≤ t ∧ ∀ e, obj.stop = some e → t ≤ e)
    ∧ operational ⟨some 0, some 5⟩ 0 = true
    ∧ operational ⟨some 0, some 5⟩ 5 = true
    ∧ operational ⟨some 0, none⟩ 100 = true
    ∧ operational ⟨none, some 5⟩ 3 = false
    ∧ operational ⟨some 0, some 5⟩ 6 = false
    ∧ operational ⟨some 1, some 5⟩ 0 = false := by
  refine ⟨?_, by norm_num [operational], by norm_num [operational],
    by norm_num [operational], by norm_num [operational],
    by norm_num [operational], by norm_num [operational]⟩
  intro obj t
  rcases obj with ⟨st, sp⟩
  cases st with
  | none => simp [operational]
  | some s =>
    cases sp with
    | none =>
      simp only [operational]
      by_cases h : t < s
      · rw [if_pos h]
        simp only [Bool.false_eq_true, false_iff]
        rintro ⟨s', hs', hle, -⟩
        rw [Option.some_inj] at hs'
        subst hs'
        exact absurd h (not_lt.mpr hle)
      · rw [if_neg h]
        simp only [true_iff]
        exact ⟨s, rfl, not_lt.mp h, by simp⟩
    | some e =>
      simp only [operational]
      by_cases h : t < s
      · rw [if_pos h]
        simp only [Bool.false_eq_true, false_iff]
        rintro ⟨s', hs', hle, -⟩
        rw [Option.some_inj] at hs'
        subst hs'
        exact absurd h (not_lt.mpr hle)
      · rw [if_neg h]
        by_cases h2 : e < t
        · rw [if_pos h2]
          simp only [Bool.false_eq_true, false_iff]
          rintro ⟨s', hs', -, hend⟩
          exact absurd h2 (not_lt.mpr (hend e rfl))
        · rw [if_neg h2]
          simp only [true_iff]
          refine ⟨s, rfl, not_lt.mp h, ?_⟩
          rintro e' he'
          rw [Option.some_inj] at he'
          subst he'
          exact not_lt.mp h2


/-! ### The `processEvent` send trace -/

/-- The three possible shapes of a `processEvent` send trace: nothing
sent; the direct-phase origin only; or the direct-phase origin followed
by a depth-phase origin.  In the last two shapes the improvement gate
did not block the direct candidate. -/
lemma trace_cases (env : Env) (prev : Option Origin) :
    (processEventModel env prev).trace = [] ∨
    ∃ r1, env.directReloc = some r1 ∧
      gateBlocks env.registry prev r1 = false ∧
      ((processEventModel env prev).trace =
         [⟨APhase.direct, prev, r1, !env.testMode⟩] ∨
       ∃ r2, env.depthReloc = some r2 ∧
         (processEventModel env prev).trace =
           [⟨APhase.direct, prev, r1, !env.testMode⟩,
            ⟨APhase.depthPhase, some r1, r2, !env.testMode⟩]) := by
  unfold processEventModel
  cases hd : env.directReloc with
  | none => exact Or.inl rfl
  | some r1 =>
    by_cases h5 : r1.arrivals.length < 5
    · simp [h5]
    · by_cases hg : gateBlocks env.registry prev r1
      · simp [h5, hg]
      · have hg' : gateBlocks env.registry prev r1 = false := by
          simpa using hg
        refine Or.inr ⟨r1, rfl, hg', ?_⟩
        cases env.depthEstimate with
        | none => simp [h5, hg]
        | some d =>
          by_cases h50 : r1.arrivals.length < 50
          · simp [h5, hg, h50]
          · by_cases h120 : 120 < r1.depth
            · simp [h5, hg, h50, h120]
            · cases hd2 : env.depthReloc with
              | none => simp [h5, hg, h50, h120, hd2]
              | some r2 =>
                by_cases h25 : r2.arrivals.length < 5
                · simp [h5, hg, h50, h120, hd2, h25]
                · exact Or.inr ⟨r2, rfl, by simp [h5, hg, h50, h120, hd2, h25]⟩

/-- C4: the cached improvement baseline follows the sends — each visit
to the send point sees as baseline the origin of the previous send of
this run (the first sees the incoming cache), and on return the cache
holds the origin of the last send (the incoming cache if nothing was
sent).  This covers depth-phase sends, which update the baseline without
having been gated. -/
theorem c4_baseline_follows_sends :
    ∀ env prev, chainFrom prev (processEventModel env prev).trace
      (processEventModel env prev).cache := by
  intro env prev
  unfold processEventModel
  cases env.directReloc with
  | none => simp [chainFrom]
  | some r1 =>
    by_cases h5 : r1.arrivals.length < 5
    · simp [h5, chainFrom]
    · by_cases hg : gateBlocks env.registry prev r1
      · simp [h5, hg, chainFrom]
      · cases env.depthEstimate with
        | none => simp [h5, hg, chainFrom]
        | some d =>
          by_cases h50 : r1.arrivals.length < 50
          · simp [h5, hg, h50, chainFrom]
          · by_cases h120 : 120 < r1.depth
            · simp [h5, hg, h50, h120, chainFrom]
            · cases env.depthReloc with
              | none => simp [h5, hg, h50, h120, chainFrom]
              | some r2 =>
                by_cases h25 : r2.arrivals.length < 5
                · simp [h5, hg, h50, h120, h25, chainFrom]
                · simp [h5, hg, h50, h120, h25, chainFrom]

/-- C2 (counterexample): a depth-phase origin is sent although a
previously published relocation (`r1C2`, the direct-phase origin sent
moments before) is cached for the event and the depth-phase candidate
does not improve on it. -/
theorem c2_counterexample_depth_send_ungated :
    ∃ rec ∈ (processEventModel envC2 none).trace,
      rec.sent = true ∧ ∃ p, rec.baselineBefore = some p ∧
        improvement envC2.registry p rec.origin = false := by
  refine ⟨⟨APhase.depthPhase, some r1C2, r2C2, true⟩, ?_, rfl, r1C2, rfl, ?_⟩
  · norm_num +decide [processEventModel, gateBlocks, envC2, r1C2, r2C2,
      mkArrivals, idsC2]
  · norm_num +decide [improvement, comparePicks, getPicksReferencedByOrigin,
      keepArrival, envC2, regC2, r1C2, r2C2, mkArrivals, idsC2]

/-- C2 (amended): only direct-phase sends are gated — a direct-phase
origin reaches the send point only if no baseline is cached for the
event or the candidate improves on the cached baseline; depth-phase
sends are unconditional. -/
theorem c2_direct_send_gated :
    ∀ env prev rec, rec ∈ (processEventModel env prev).trace →
      rec.phase = APhase.direct →
      ∀ p, rec.baselineBefore = some p →
        improvement env.registry p rec.origin = true := by
  intro env prev rec hmem hph p hp
  rcases trace_cases env prev with h0 | ⟨r1, hd, hgate, h1 | ⟨r2, hd2, h2⟩⟩
  · rw [h0] at hmem
    simp at hmem
  · rw [h1] at hmem
    rw [List.mem_singleton] at hmem
    subst hmem
    simp only at hp
    subst hp
    simpa [gateBlocks] using hgate
  · rw [h2] at hmem
    rcases List.mem_cons.mp hmem with hr | hr
    · subst hr
      simp only at hp
      subst hp
      simpa [gateBlocks] using hgate
    · rw [List.mem_singleton] at hr
      subst hr
      simp at hph

/-- C2 (witness for the amended theorem): with a cached baseline `pW`
and an improving direct candidate `rW`, the direct send passes the
gate. -/
theorem c2_direct_send_gated_witness :
    improvement envW.registry pW rW = true :=
  c2_direct_send_gated envW (some pW) ⟨APhase.direct, some pW, rW, true⟩
    (by norm_num +decide [processEventModel, gateBlocks, improvement,
      comparePicks, getPicksReferencedByOrigin, keepArrival, envW, pW, rW,
      mkArrivals])
    rfl pW rfl

/-- C6: the depth-phase relocation attempt is entered iff the direct
phase succeeded through its send point, an independent depth estimate is
available, the direct result has at least 50 arrivals and its depth is
at most 120 km; the boundaries behave as stated (49 arrivals skips,
50 enters; depth 120 enters, 121 skips). -/
theorem c6_depth_phase_preconditions :
    (∀ env prev,
      (processEventModel env prev).depthPhaseEntered = true ↔
        (env.depthEstimate.isSome = true ∧
         ∃ rec ∈ (processEventModel env prev).trace,
           rec.phase = APhase.direct ∧
           50 ≤ rec.origin.arrivals.length ∧ rec.origin.depth ≤ 120))
    ∧ (processEventModel (envOf oA49) none).depthPhaseEntered = false
    ∧ (processEventModel (envOf oA50) none).depthPhaseEntered = true
    ∧ (processEventModel (envOf oD120) none).depthPhaseEntered = true
    ∧ (processEventModel (envOf oD121) none).depthPhaseEntered = false := by
  refine ⟨?_, ?_, ?_, ?_, ?_⟩
  · intro env prev
    unfold processEventModel
    cases hd : env.directReloc with
    | none => simp
    | some r1 =>
      by_cases h5 : r1.arrivals.length < 5
      · simp [h5]
      · by_cases hg : gateBlocks env.registry prev r1
        · simp [h5, hg]
        · cases he : env.depthEstimate with
          | none => simp [h5, hg]
          | some d =>
            by_cases h50 : r1.arrivals.length < 50
            · simp [h5, hg, h50]
            · by_cases h120 : 120 < r1.depth
              · simp [h5, hg, h50, h120]
              · cases hd2 : env.depthReloc with
                | none =>
                  simp [h5, hg, h50, h120, hd2]
                  exact ⟨by omega, not_lt.mp h120⟩
                | some r2 =>
                  by_cases h25 : r2.arrivals.length < 5
                  · simp [h5, hg, h50, h120, hd2, h25]
                    exact ⟨by omega, not_lt.mp h120⟩
                  · simp [h5, hg, h50, h120, hd2, h25]
                    exact ⟨by omega, not_lt.mp h120⟩
  · norm_num +decide [processEventModel, gateBlocks, envOf, oA49, padArrivals]
  · norm_num +decide [processEventModel, gateBlocks, envOf, oA50, padArrivals]
  · norm_num +decide [processEventModel, gateBlocks, envOf, oD120, padArrivals]
  · norm_num +decide [processEventModel, gateBlocks, envOf, oD121, padArrivals]

/-- C3 (counterexample): for an in-region, fixed-depth, own-agency
manual origin of depth 33 km, the code fixes depth at the origin's own
33 km (trusted-manual wins) while the claimed precedence — region
override above trusted-manual — would fix it at 1 km. -/
theorem c3_counterexample_region_does_not_override_manual :
    fixedDepthDirective "GFZ" oC3 = some 33
    ∧ claimedDirective "GFZ" oC3 = some 1
    ∧ fixedDepthDirective "GFZ" oC3 ≠ claimedDirective "GFZ" oC3 := by
  refine ⟨?_, ?_, ?_⟩ <;>
    norm_num [fixedDepthDirective, claimedDirective, getFixedDepth, oC3]

/-- C3 (amended): the directive precedence the code implements is
trusted-manual (fixed-depth origin, own agency, manual status) above the
explicit region override, above the default-depth passthrough
(fixed-depth origin whose depth equals the regional default), above free
depth. -/
theorem c3_fixed_depth_directive :
    ∀ ownAgency o, fixedDepthDirective ownAgency o = amendedDirective ownAgency o := by
  intro ownAgency o
  unfold fixedDepthDirective amendedDirective getFixedDepth
  by_cases hr : 50 ≤ o.lat ∧ o.lat ≤ 52 ∧ 15 ≤ o.lon ∧ o.lon ≤ 20
  · simp only [hr, if_true]
    by_cases hf : o.hasFixedDepth = true
    · by_cases hm : o.agencyID = ownAgency ∧ o.statusFlag = "M"
      · simp [hf, hm]
      · by_cases hd : o.depth = 1
        · simp [hf, hm, hd]
        · simp [hf, hm, hd]
    · simp [hf]
  · simp only [hr, if_false]
    by_cases hf : o.hasFixedDepth = true
    · by_cases hm : o.agencyID = ownAgency ∧ o.statusFlag = "M"
      · simp [hf, hm]
      · by_cases hd : o.depth = 10
        · simp [hf, hm, hd]
        · simp [hf, hm, hd]
    · simp [hf, hr]

/-! ### Sweep lemmas -/

lemma mem_insertLe {α : Type} (le : α → α → Bool) (e a : α) :
    ∀ l : List α, a ∈ insertLe le e l ↔ a = e ∨ a ∈ l := by
  intro l
  induction l with
  | nil => simp [insertLe]
  | cons x xs ih =>
    simp only [insertLe]
    by_cases h : le e x
    · simp [h]
    · rw [if_neg h]
      simp only [List.mem_cons, ih]
      tauto

lemma mem_sortLe {α : Type} (le : α → α → Bool) (a : α) :
    ∀ l : List α, a ∈ sortLe le l ↔ a ∈ l := by
  intro l
  induction l with
  | nil => simp [sortLe]
  | cons x xs ih =>
    simp only [sortLe, mem_insertLe, ih, List.mem_cons]

lemma sweepFold_pending_sub (own : String) (minDelay now : ℚ) :
    ∀ (l : List PendingEvent) (acc : List PendingEvent × List PendingEvent) x,
      x ∈ (l.foldl (sweepStepFn own minDelay now) acc).1 → x ∈ acc.1 := by
  intro l
  induction l with
  | nil => intro acc x hx; simpa using hx
  | cons a t ih =>
    intro acc x hx
    have hx' := ih _ x hx
    unfold sweepStepFn at hx'
    cases h : readyToProcess own minDelay now a.origin <;> rw [h] at hx'
    · exact hx'
    · exact (List.mem_filter.mp hx').1
    · exact (List.mem_filter.mp hx').1

lemma sweepFold_processed_src (own : String) (minDelay now : ℚ) :
    ∀ (l : List PendingEvent) (acc : List PendingEvent × List PendingEvent) x,
      x ∈ (l.foldl (sweepStepFn own minDelay now) acc).2 →
        x ∈ acc.2 ∨ x ∈ l := by
  intro l
  induction l with
  | nil => intro acc x hx; exact Or.inl (by simpa using hx)
  | cons a t ih =>
    intro acc x hx
    rcases ih _ x hx with hx' | hx'
    · unfold sweepStepFn at hx'
      cases h : readyToProcess own minDelay now a.origin <;> rw [h] at hx'
      · exact Or.inl hx'
      · rcases List.mem_append.mp hx' with h2 | h2
        · exact Or.inl h2
        · exact Or.inr (List.mem_cons.mpr (Or.inl (List.mem_singleton.mp h2)))
      · exact Or.inl hx'
    · exact Or.inr (List.mem_cons_of_mem a hx')

lemma sweepFold_id_kept_out (own : String) (minDelay now : ℚ)
    (l : List PendingEvent) (acc : List PendingEvent × List PendingEvent)
    (i : String) (h : i ∉ acc.1.map PendingEvent.id) :
    i ∉ ((l.foldl (sweepStepFn own minDelay now) acc).1.map PendingEvent.id) := by
  intro hi
  rcases List.mem_map.mp hi with ⟨x, hx, hxi⟩
  exact h (List.mem_map.mpr ⟨x, sweepFold_pending_sub own minDelay now l acc x hx, hxi⟩)

lemma sweepFold_removes (own : String) (minDelay now : ℚ) :
    ∀ (l : List PendingEvent) (acc : List PendingEvent × List PendingEvent)
      (e : PendingEvent), e ∈ l →
      readyToProcess own minDelay now e.origin ≠ Readiness.notReady →
      e.id ∉ ((l.foldl (sweepStepFn own minDelay now) acc).1.map PendingEvent.id) := by
  intro l
  induction l with
  | nil => intro acc e he; simp at he
  | cons a t ih =>
    intro acc e he hne
    rcases List.mem_cons.mp he with rfl | he'
    · simp only [List.foldl_cons]
      apply sweepFold_id_kept_out
      unfold sweepStepFn
      cases h : readyToProcess own minDelay now e.origin
      · exact absurd h hne
      all_goals
        intro hi
        rcases List.mem_map.mp hi with ⟨x, hx, hxi⟩
        rcases List.mem_filter.mp hx with ⟨-, hxd⟩
        rw [decide_eq_true_iff] at hxd
        exact hxd hxi
    · simp only [List.foldl_cons]
      exact ih _ e he' hne

lemma sweepFold_not_processed (own : String) (minDelay now : ℚ) :
    ∀ (l : List PendingEvent) (acc : List PendingEvent × List PendingEvent)
      (e : PendingEvent),
      readyToProcess own minDelay now e.origin ≠ Readiness.ready →
      (∀ x ∈ l, x.id = e.id → x = e) →
      e.id ∉ acc.2.map PendingEvent.id →
      e.id ∉ ((l.foldl (sweepStepFn own minDelay now) acc).2.map PendingEvent.id) := by
  intro l
  induction l with
  | nil => intro acc e _ _ hacc; simpa using hacc
  | cons a t ih =>
    intro acc e hne huniq hacc
    simp only [List.foldl_cons]
    refine ih _ e hne (fun x hx => huniq x (List.mem_cons_of_mem a hx)) ?_
    unfold sweepStepFn
    cases h : readyToProcess own minDelay now a.origin
    · exact hacc
    · intro hi
      rcases List.mem_map.mp hi with ⟨x, hx, hxi⟩
      rcases List.mem_append.mp hx with h2 | h2
      · exact hacc (List.mem_map.mpr ⟨x, h2, hxi⟩)
      · have h2' : x = a := List.mem_singleton.mp h2
        have hae : a = e := huniq a (List.mem_cons_self a t) (h2' ▸ hxi)
        rw [hae] at h
        exact hne h
    · exact hacc

lemma sweepFold_keeps_notReady (own : String) (minDelay now : ℚ) :
    ∀ (l : List PendingEvent) (acc : List PendingEvent × List PendingEvent)
      (e : PendingEvent), e ∈ acc.1 →
      readyToProcess own minDelay now e.origin = Readiness.notReady →
      (∀ x ∈ l, x.id = e.id → x = e) →
      e ∈ (l.foldl (sweepStepFn own minDelay now) acc).1 := by
  intro l
  induction l with
  | nil => intro acc e he _ _; simpa using he
  | cons a t ih =>
    intro acc e he hnr huniq
    simp only [List.foldl_cons]
    refine ih _ e ?_ hnr (fun x hx => huniq x (List.mem_cons_of_mem a hx))
    unfold sweepStepFn
    cases h : readyToProcess own minDelay now a.origin
    · exact he
    all_goals
      refine List.mem_filter.mpr ⟨he, ?_⟩
      rw [decide_eq_true_iff]
      intro hid
      have hae : a = e := huniq a (List.mem_cons_self a t) hid.symm
      rw [hae, hnr] at h
      exact Readiness.noConfusion h

lemma eq_of_nodup_ids :
    ∀ (l : List PendingEvent), (l.map PendingEvent.id).Nodup →
      ∀ x ∈ l, ∀ y ∈ l, x.id = y.id → x = y := by
  intro l
  induction l with
  | nil => intro _ x hx; simp at hx
  | cons a t ih =>
    intro hnd x hx y hy hxy
    rw [List.map_cons, List.nodup_cons] at hnd
    rcases List.mem_cons.mp hx with rfl | hx' <;>
      rcases List.mem_cons.mp hy with rfl | hy'
    · rfl
    · exact absurd (List.mem_map.mpr ⟨y, hy', hxy.symm⟩) hnd.1
    · exact absurd (List.mem_map.mpr ⟨x, hx', hxy⟩) hnd.1
    · exact ih hnd.2 x hx' y hy' hxy

lemma sweeps_absent (own : String) (minDelay : ℚ) :
    ∀ (ticks : List ℚ) (pending : List PendingEvent) (i : String),
      i ∉ pending.map PendingEvent.id →
      i ∉ (sweeps own minDelay ticks pending).1.map PendingEvent.id ∧
      i ∉ (sweeps own minDelay ticks pending).2.map PendingEvent.id := by
  intro ticks
  induction ticks with
  | nil => intro pending i h; exact ⟨h, by simp [sweeps]⟩
  | cons now ts ih =>
    intro pending i h
    have h1 : i ∉ (sweep own minDelay now pending).1.map PendingEvent.id :=
      sweepFold_id_kept_out own minDelay now _ (pending, []) i h
    have h2 : i ∉ (sweep own minDelay now pending).2.map PendingEvent.id := by
      intro hi
      rcases List.mem_map.mp hi with ⟨x, hx, hxi⟩
      rcases sweepFold_processed_src own minDelay now _ (pending, []) x hx with h0 | h0
      · simp at h0
      · exact h ((List.mem_map.mpr ⟨x, (mem_sortLe _ x pending).mp h0, hxi⟩))
    rcases ih _ i h1 with ⟨h3, h4⟩
    refine ⟨by simpa [sweeps] using h3, ?_⟩
    simp only [sweeps, List.map_append, List.mem_append]
    rintro (h5 | h5)
    · exact h2 h5
    · exact h4 h5

/-- C5: for a loaded preferred origin that passes the author and
qualification checks, the readiness evaluation is Ready iff the elapsed
time since origin time reaches the configured minimum delay, with the
boundary inclusive; below the boundary it is NotReady and the event
stays in the pending set. -/
theorem c5_readiness_boundary :
    ∀ (own : String) (minDelay now : ℚ) (o : ROrigin),
      (match o.author with | some a => a | none => "MISSING") ≠ own →
      o.qualified = true →
      ((readyToProcess own minDelay now (some o) = Readiness.ready ↔
          minDelay ≤ now - o.time)
       ∧ (readyToProcess own minDelay now (some o) = Readiness.notReady ↔
          now - o.time < minDelay)
       ∧ ∀ (pending : List PendingEvent) (e : PendingEvent),
           e ∈ pending → (pending.map PendingEvent.id).Nodup →
           e.origin = some o → now - o.time < minDelay →
           e ∈ (sweep own minDelay now pending).1) := by
  intro own minDelay now o hauthor hqual
  have hqual' : ¬(o.qualified = false) := by simp [hqual]
  refine ⟨?_, ?_, ?_⟩
  · simp only [readyToProcess]
    by_cases h : now - o.time < minDelay
    · rw [if_pos h]
      constructor
      · intro hc; exact Readiness.noConfusion hc
      · intro hc; exact absurd h (not_lt.mpr hc)
    · rw [if_neg h, if_neg hauthor, if_neg hqual']
      simp [not_lt.mp h]
  · simp only [readyToProcess]
    by_cases h : now - o.time < minDelay
    · rw [if_pos h]
      simp [h]
    · rw [if_neg h, if_neg hauthor, if_neg hqual']
      constructor
      · intro hc; exact Readiness.noConfusion hc
      · intro hc; exact absurd hc h
  · intro pending e hmem hnd horig hdt
    refine sweepFold_keeps_notReady own minDelay now _ (pending, []) e hmem ?_ ?_
    · rw [horig]
      simp only [readyToProcess]
      rw [if_pos hdt]
    · intro x hx hxid
      exact eq_of_nodup_ids pending hnd x ((mem_sortLe _ x pending).mp hx) e hmem hxid

/-- C5 (witness): a foreign-author qualified origin whose elapsed time
exactly equals the minimum delay is Ready. -/
theorem c5_readiness_boundary_witness :
    readyToProcess "dl-reloc" 1200 1200 (some oC5) = Readiness.ready :=
  ((c5_readiness_boundary "dl-reloc" 1200 1200 oC5 (by decide) rfl).1).mpr
    (by norm_num [oC5])

/-- C7 (counterexample): an own-author, qualified origin evaluated
before the minimum delay has elapsed is NotReady — not Rejected — and
the event stays in the pending set. -/
theorem c7_counterexample_delay_checked_first :
    (match oC7.author with | some a => a | none => "MISSING") = "dl-reloc"
    ∧ oC7.qualified = true
    ∧ readyToProcess "dl-reloc" 1200 1000 (some oC7) ≠ Readiness.rejected
    ∧ readyToProcess "dl-reloc" 1200 1000 (some oC7) = Readiness.notReady
    ∧ eC7 ∈ (sweep "dl-reloc" 1200 1000 [eC7]).1 := by
  refine ⟨rfl, rfl, ?_, ?_, ?_⟩
  · norm_num [readyToProcess, oC7]
    decide
  · norm_num [readyToProcess, oC7]
  · norm_num [sweep, sortLe, insertLe, sweepStepFn, readyToProcess, eC7, oC7]

/-- C7 (amended): once the minimum delay since origin time has elapsed,
a pending event whose loaded preferred origin is own-authored or
unqualified is Rejected, removed from the pending set, never handed to
the relocation controller, and — absent an external re-add — never
re-evaluated by any later sweep. -/
theorem c7_rejected_once_delay_elapsed :
    ∀ (own : String) (minDelay now : ℚ) (ticks : List ℚ)
      (pending : List PendingEvent) (e : PendingEvent) (o : ROrigin),
      e ∈ pending → (pending.map PendingEvent.id).Nodup →
      e.origin = some o → minDelay ≤ now - o.time →
      ((match o.author with | some a => a | none => "MISSING") = own ∨
        o.qualified = false) →
      readyToProcess own minDelay now e.origin = Readiness.rejected
      ∧ e.id ∉ (sweep own minDelay now pending).1.map PendingEvent.id
      ∧ e.id ∉ (sweep own minDelay now pending).2.map PendingEvent.id
      ∧ e.id ∉ (sweeps own minDelay ticks
          (sweep own minDelay now pending).1).1.map PendingEvent.id
      ∧ e.id ∉ (sweeps own minDelay ticks
          (sweep own minDelay now pending).1).2.map PendingEvent.id := by
  intro own minDelay now ticks pending e o hmem hnd horig hdt hrej
  have hr : readyToProcess own minDelay now e.origin = Readiness.rejected := by
    rw [horig]
    simp only [readyToProcess]
    rw [if_neg (not_lt.mpr hdt)]
    rcases hrej with ha | hq
    · rw [if_pos ha]
    · by_cases ha : (match o.author with | some a => a | none => "MISSING") = own
      · rw [if_pos ha]
      · rw [if_neg ha, if_pos hq]
  have h2 : e.id ∉ (sweep own minDelay now pending).1.map PendingEvent.id :=
    sweepFold_removes own minDelay now _ (pending, []) e
      ((mem_sortLe _ e pending).mpr hmem) (by rw [hr]; simp)
  have h3 : e.id ∉ (sweep own minDelay now pending).2.map PendingEvent.id :=
    sweepFold_not_processed own minDelay now _ (pending, []) e
      (by rw [hr]; simp)
      (fun x hx hxid =>
        eq_of_nodup_ids pending hnd x ((mem_sortLe _ x pending).mp hx) e hmem hxid)
      (by simp)
  rcases sweeps_absent own minDelay ticks _ e.id h2 with ⟨h4, h5⟩
  exact ⟨hr, h2, h3, h4, h5⟩

/-- C7 (witness for the amended theorem): after the delay has elapsed,
the own-author event is Rejected and gone from the pending set. -/
theorem c7_rejected_once_delay_elapsed_witness :
    readyToProcess "dl-reloc" 1200 2000 eW7.origin = Readiness.rejected
    ∧ eW7.id ∉ (sweep "dl-reloc" 1200 2000 [eW7]).1.map PendingEvent.id :=
  let h := c7_rejected_once_delay_elapsed "dl-reloc" 1200 2000 [] [eW7] eW7 oC7
    (by simp) (by simp) rfl (by norm_num [oC7]) (Or.inl (by decide))
  ⟨h.1, h.2.1⟩

/-! ### Mailbox queue lemmas -/

lemma runItems_links_sub (outcome : String → ItemOutcome) (rev : Bool) :
    ∀ (items : List SpoolLink) (s : SpoolState) (x : SpoolLink),
      x ∈ ((runItems outcome rev items s).1).links → x ∈ s.links := by
  intro items
  induction items with
  | nil => intro s x hx; simpa [runItems] using hx
  | cons l rest ih =>
    intro s x hx
    unfold runItems at hx
    cases h : outcome l.name <;> rw [h] at hx
    · exact ih s x hx
    · exact (List.mem_filter.mp (ih _ x hx)).1
    · exact ih s x hx
    · by_cases hr : rev
      · rw [if_pos hr] at hx
        exact (List.mem_filter.mp hx).1
      · rw [if_neg hr] at hx
        exact (List.mem_filter.mp (ih _ x hx)).1

lemma runItems_processed_sub (outcome : String → ItemOutcome) (rev : Bool) :
    ∀ (items : List SpoolLink) (s : SpoolState) (nm : String),
      nm ∈ (runItems outcome rev items s).2 → nm ∈ items.map SpoolLink.name := by
  intro items
  induction items with
  | nil => intro s nm h; simp [runItems] at h
  | cons l rest ih =>
    intro s nm h
    unfold runItems at h
    cases ho : outcome l.name <;> rw [ho] at h
    · rcases List.mem_cons.mp h with rfl | h'
      · exact List.mem_map.mpr ⟨l, List.mem_cons_self l rest, rfl⟩
      · exact List.mem_cons_of_mem _ (ih _ nm h')
    · rcases List.mem_cons.mp h with rfl | h'
      · exact List.mem_map.mpr ⟨l, List.mem_cons_self l rest, rfl⟩
      · exact List.mem_cons_of_mem _ (ih _ nm h')
    · rcases List.mem_cons.mp h with rfl | h'
      · exact List.mem_map.mpr ⟨l, List.mem_cons_self l rest, rfl⟩
      · exact List.mem_cons_of_mem _ (ih _ nm h')
    · by_cases hr : rev
      · rw [if_pos hr] at h
        rw [List.mem_singleton] at h
        subst h
        exact List.mem_map.mpr ⟨l, List.mem_cons_self l rest, rfl⟩
      · rw [if_neg hr] at h
        rcases List.mem_cons.mp h with rfl | h'
        · exact List.mem_map.mpr ⟨l, List.mem_cons_self l rest, rfl⟩
        · exact List.mem_cons_of_mem _ (ih _ nm h')

lemma findSpoolItems_sub (s : SpoolState) (l : SpoolLink)
    (h : l ∈ findSpoolItems s) : l ∈ s.links := by
  unfold findSpoolItems at h
  rw [mem_sortLe] at h
  exact (List.mem_filter.mp (List.mem_filter.mp h).1).1

lemma pollStep_links_sub (outcome : String → ItemOutcome) (rev : Bool)
    (s : SpoolState) (x : SpoolLink)
    (h : x ∈ ((pollStep outcome rev s).1).links) : x ∈ s.links :=
  runItems_links_sub outcome rev _ s x h

lemma pollStep_processed_sub (outcome : String → ItemOutcome) (rev : Bool)
    (s : SpoolState) (nm : String)
    (h : nm ∈ (pollStep outcome rev s).2) : nm ∈ s.links.map SpoolLink.name := by
  have h1 := runItems_processed_sub outcome rev _ s nm h
  have h2 : nm ∈ (findSpoolItems s).map SpoolLink.name := by
    by_cases hr : rev
    · rw [hr] at h1
      simpa using h1
    · simpa [hr] using h1
  rcases List.mem_map.mp h2 with ⟨l, hl, hln⟩
  exact List.mem_map.mpr ⟨l, findSpoolItems_sub s l hl, hln⟩

/-- C8: once a link has been removed from the spool, no later consumer
pass ever reads its item again — even when its payload file still
exists — and, absent an external re-deposit, the link never reappears
in the spool. -/
theorem c8_removed_link_never_reprocessed :
    ∀ (outcome : String → ItemOutcome) (rev : Bool) (n : Nat)
      (s : SpoolState) (nm : String),
      nm ∉ s.links.map SpoolLink.name →
      nm ∉ pollTrace outcome rev n s ∧
      nm ∉ (pollIter outcome rev n s).links.map SpoolLink.name := by
  intro outcome rev n
  induction n with
  | zero => intro s nm h; exact ⟨by simp [pollTrace], by simpa [pollIter] using h⟩
  | succ k ih =>
    intro s nm h
    have hs : nm ∉ ((pollStep outcome rev s).1).links.map SpoolLink.name := by
      intro hi
      rcases List.mem_map.mp hi with ⟨x, hx, hxn⟩
      exact h (List.mem_map.mpr ⟨x, pollStep_links_sub outcome rev s x hx, hxn⟩)
    rcases ih _ nm hs with ⟨h1, h2⟩
    refine ⟨?_, by simpa [pollIter] using h2⟩
    simp only [pollTrace, List.mem_append]
    rintro (h3 | h3)
    · exact h (pollStep_processed_sub outcome rev s nm h3)
    · exact h1 h3

/-- C8 (witness): with the link `"a.yaml"` already removed but its
payload still on disk, three further wakes never read the item and never
resurrect the link. -/
theorem c8_removed_link_never_reprocessed_witness :
    "a.yaml" ∉ pollTrace outcomeW8 true 3 sW8 ∧
    "a.yaml" ∉ (pollIter outcomeW8 true 3 sW8).links.map SpoolLink.name :=
  c8_removed_link_never_reprocessed outcomeW8 true 3 sW8 "a.yaml" (by decide)

/-! ### Pick-processing lemmas -/

lemma alookup_append (k : String) :
    ∀ (l1 l2 : List (String × RPick)),
      alookup k (l1 ++ l2) =
        match alookup k l1 with
        | some v => some v
        | none => alookup k l2 := by
  intro l1 l2
  induction l1 with
  | nil => simp [alookup]
  | cons kv rest ih =>
    rcases kv with ⟨k', v⟩
    by_cases h : k' = k
    · simp [alookup, h]
    · simp [alookup, h, ih]

lemma alookup_append_none_left (k : String) (l1 l2 : List (String × RPick))
    (h : alookup k (l1 ++ l2) = none) : alookup k l1 = none := by
  rw [alookup_append] at h
  cases h1 : alookup k l1 with
  | none => rfl
  | some v => rw [h1] at h; exact h

lemma alookup_self_append (k : String) (v : RPick) (l : List (String × RPick)) :
    alookup k (l ++ [(k, v)]) ≠ none := by
  rw [alookup_append]
  cases h1 : alookup k l with
  | none => simp [alookup]
  | some w => simp

lemma alookup_none_iff (k : String) :
    ∀ (l : List (String × RPick)),
      alookup k l = none ↔ k ∉ l.map Prod.fst := by
  intro l
  induction l with
  | nil => simp [alookup]
  | cons kv rest ih =>
    rcases kv with ⟨k', v⟩
    by_cases h : k' = k
    · simp [alookup, h]
    · simp [alookup, h, ih, Ne.symm h]

lemma collectNew_keys :
    ∀ (adhoc : List RPick) (wp : List (String × RPick)),
      ((collectNew wp adhoc).1).map Prod.fst =
        wp.map Prod.fst ++ ((collectNew wp adhoc).2).map RPick.publicID := by
  intro adhoc
  induction adhoc with
  | nil => intro wp; simp [collectNew]
  | cons p rest ih =>
    intro wp
    by_cases h : (alookup p.publicID wp).isSome
    · simp only [collectNew, h, if_pos]
      exact ih wp
    · simp only [collectNew, h, if_neg, Bool.false_eq_true, not_false_iff]
      rw [ih (wp ++ [(p.publicID, p)])]
      simp

lemma collectNew_unseen :
    ∀ (adhoc : List RPick) (wp : List (String × RPick)) (p : RPick),
      p ∈ (collectNew wp adhoc).2 → alookup p.publicID wp = none := by
  intro adhoc
  induction adhoc with
  | nil => intro wp p hp; simp [collectNew] at hp
  | cons q rest ih =>
    intro wp p hp
    by_cases h : (alookup q.publicID wp).isSome
    · rw [collectNew, if_pos h] at hp
      exact ih wp p hp
    · rw [collectNew, if_neg h] at hp
      rcases List.mem_cons.mp hp with rfl | hp'
      · exact Option.not_isSome_iff_eq_none.mp h
      · exact alookup_append_none_left _ wp _ (ih _ p hp')

lemma collectNew_nodup :
    ∀ (adhoc : List RPick) (wp : List (String × RPick)),
      (((collectNew wp adhoc).2).map RPick.publicID).Nodup := by
  intro adhoc
  induction adhoc with
  | nil => intro wp; simp [collectNew]
  | cons q rest ih =>
    intro wp
    by_cases h : (alookup q.publicID wp).isSome
    · rw [collectNew, if_pos h]
      exact ih wp
    · rw [collectNew, if_neg h]
      simp only [List.map_cons, List.nodup_cons]
      refine ⟨?_, ih _⟩
      intro hq
      rcases List.mem_map.mp hq with ⟨p, hp, hpq⟩
      have := collectNew_unseen rest _ p hp
      rw [hpq] at this
      exact alookup_self_append q.publicID q wp this

lemma collectNew_all_seen :
    ∀ (adhoc : List RPick) (wp : List (String × RPick)),
      (∀ p ∈ adhoc, (alookup p.publicID wp).isSome = true) →
      collectNew wp adhoc = (wp, []) := by
  intro adhoc
  induction adhoc with
  | nil => intro wp _; rfl
  | cons q rest ih =>
    intro wp h
    rw [collectNew, if_pos (h q (List.mem_cons_self q rest))]
    exact ih wp (fun p hp => h p (List.mem_cons_of_mem q hp))

lemma processStep_submitted (minConf : ℚ) (modelName : String)
    (mlPredict : List RPick → List (String × List (ℚ × ℚ)))
    (ws : Workspace) (adhoc : List RPick) :
    (processStep minConf modelName mlPredict ws adhoc).2.2 =
      ((collectNew ws.picks adhoc).2).map RPick.publicID := by
  simp only [processStep]
  split
  · rfl
  · split
    · rfl
    · rfl

lemma processStep_picks (minConf : ℚ) (modelName : String)
    (mlPredict : List RPick → List (String × List (ℚ × ℚ)))
    (ws : Workspace) (adhoc : List RPick) :
    ((processStep minConf modelName mlPredict ws adhoc).2.1).picks =
      (collectNew ws.picks adhoc).1 := by
  simp only [processStep]
  split
  · rfl
  · split
    · rfl
    · rfl

/-- C9: per-event processing is idempotent by pick identity — the picks
submitted to prediction were never seen before for this event and are
pairwise distinct, the seen-set grows by exactly the submitted IDs, a
pick list whose publicIDs were all seen yields an empty result and an
empty submission, and no pickID submitted by a later invocation repeats
one submitted by this invocation. -/
theorem c9_process_idempotent_by_pick_identity :
    ∀ (minConf : ℚ) (modelName : String)
      (mlPredict : List RPick → List (String × List (ℚ × ℚ)))
      (ws : Workspace) (adhoc : List RPick),
      (∀ pid ∈ (processStep minConf modelName mlPredict ws adhoc).2.2,
         alookup pid ws.picks = none)
      ∧ (processStep minConf modelName mlPredict ws adhoc).2.2.Nodup
      ∧ ((processStep minConf modelName mlPredict ws adhoc).2.1.picks.map Prod.fst
          = ws.picks.map Prod.fst
            ++ (processStep minConf modelName mlPredict ws adhoc).2.2)
      ∧ ((∀ p ∈ adhoc, (alookup p.publicID ws.picks).isSome = true) →
          (processStep minConf modelName mlPredict ws adhoc).1 = []
          ∧ (processStep minConf modelName mlPredict ws adhoc).2.2 = [])
      ∧ (∀ (adhoc2 : List RPick) (pid : String),
          pid ∈ (processStep minConf modelName mlPredict
                  (processStep minConf modelName mlPredict ws adhoc).2.1
                  adhoc2).2.2 →
          pid ∉ (processStep minConf modelName mlPredict ws adhoc).2.2) := by
  intro minConf modelName mlPredict ws adhoc
  refine ⟨?_, ?_, ?_, ?_, ?_⟩
  · rw [processStep_submitted]
    intro pid hpid
    rcases List.mem_map.mp hpid with ⟨p, hp, rfl⟩
    exact collectNew_unseen adhoc ws.picks p hp
  · rw [processStep_submitted]
    exact collectNew_nodup adhoc ws.picks
  · rw [processStep_submitted, processStep_picks]
    exact collectNew_keys adhoc ws.picks
  · intro hseen
    have hc := collectNew_all_seen adhoc ws.picks hseen
    constructor
    · simp only [processStep, hc]
      rfl
    · rw [processStep_submitted, hc]
      rfl
  · intro adhoc2 pid hpid hmem
    rw [processStep_submitted] at hpid
    rcases List.mem_map.mp hpid with ⟨p, hp, rfl⟩
    have hnone := collectNew_unseen adhoc2 _ p hp
    rw [processStep_picks] at hnone
    rw [alookup_none_iff] at hnone
    rw [collectNew_keys] at hnone
    rw [processStep_submitted] at hmem
    exact hnone (List.mem_append_right _ hmem)

/-- C9 (witness): redelivering a payload whose single pick was already
seen for the event yields an empty result list and submits nothing to
prediction. -/
theorem c9_process_idempotent_witness :
    (processStep 1 "phasenet" (fun _ => []) wsW9 [pickW9]).1 = []
    ∧ (processStep 1 "phasenet" (fun _ => []) wsW9 [pickW9]).2.2 = [] :=
  (c9_process_idempotent_by_pick_identity 1 "phasenet" (fun _ => [])
    wsW9 [pickW9]).2.2.2.1 (by decide)

end Scdlpicker
